import Mathlib

/-!
Verification of the cabundle-operator reconciliation core.

The Go sources are shallowly embedded:
* `reName` embeds the name normalizer (`reName` in the controller package);
* a small cluster model (`ConfigMap`, `Cluster`, the `k*` client primitives
  with injectable faults) supports the embeddings of `checkConfigMap`,
  `createOrUpdateConfigMap`, `GetBundleConfigMaps`, `DeleteBundleConfigMap`,
  `CleanUpConfigMaps` and the `Reconcile` converge/reap loop;
* `DownloadPEMBundles` is embedded over an abstract HTTP environment;
* the periodic `Runner.Start` select loop is embedded as a fold over the
  sequence of select outcomes it observes.
-/

namespace CABundle

/-- Go `strings.TrimSuffix`: drop `suffix` from the end of `s` when present,
otherwise return `s` unchanged. -/
def trimSuffix (s suffix : String) : String :=
  if List.isSuffixOf suffix.data s.data then
    String.mk (s.data.take (s.data.length - suffix.data.length))
  else s

/-- The character class `[a-zA-Z0-9]` of the Go regular expression in `reName`. -/
def goAlnum (c : Char) : Bool :=
  ('a' ≤ c && c ≤ 'z') || ('A' ≤ c && c ≤ 'Z') || ('0' ≤ c && c ≤ '9')

/-- One step of `re.ReplaceAllString` for the pattern `[^a-zA-Z0-9]` with
replacement `-`: each single character outside the class becomes `-`. -/
def replChar (c : Char) : Char :=
  if goAlnum c then c else '-'

/-- Embedding of `reName` (controller package): trim `.pem`, then trim `.crt`,
replace every character outside `[a-zA-Z0-9]` by `-`, then lowercase. -/
def reName (name : String) : String :=
  let nameTrimmed := trimSuffix name ".pem"
  let nameTrimmed2 := trimSuffix nameTrimmed ".crt"
  String.mk ((nameTrimmed2.data.map replChar).map Char.toLower)

mutual

/-- Modelled from the spec's words (for comparison with `reName`, not from the
source): "replaces every run of characters outside `[a-zA-Z0-9]` with a single
separator".  A maximal run of non-alphanumeric characters becomes one `-`. -/
def collapseRuns : List Char → List Char
  | [] => []
  | c :: cs => if goAlnum c then c :: collapseRuns cs else '-' :: insideRun cs

/-- Modelled from the spec's words: consume the remainder of a run of
non-alphanumeric characters (already represented by one `-`). -/
def insideRun : List Char → List Char
  | [] => []
  | c :: cs => if goAlnum c then c :: collapseRuns cs else insideRun cs

end

/-- Modelled from the spec's words: the normalizer as §4.2 describes it —
trim the two suffixes, collapse each non-alphanumeric run to a single `-`,
lowercase. -/
def specNormalize (name : String) : String :=
  let t := trimSuffix (trimSuffix name ".pem") ".crt"
  String.mk ((collapseRuns t.data).map Char.toLower)

/-! ## Cluster model

The controller talks to the cluster through `client.Client`
(`Get`/`List`/`Create`/`Update`/`Delete`), always in `r.TargetNamespace`.
The namespace is therefore left implicit and a cluster state is the list of
ConfigMaps of the target namespace.  Label and data maps are association
lists.  `Faults` injects the failures the real API server may return, so the
error paths of the Go code are reachable in the model. -/

/-- The constant `CAKey = "ca.crt"` of the controller package. -/
def CAKey : String := "ca.crt"

/-- `PEMFile` of the controller package (`Content []byte` is compared and
stored via `string(...)`, so it is modelled as a `String`). -/
structure PEMFile where
  filename : String
  content : String
deriving DecidableEq, Repr

/-- Lookup in a Go `map[string]string`, modelled as an association list. -/
def lookupA (m : List (String × String)) (k : String) : Option String :=
  (m.find? (fun p => p.1 == k)).map (·.2)

/-- Assignment `m[k] = v` in a Go `map[string]string`. -/
def insertA (m : List (String × String)) (k v : String) : List (String × String) :=
  if (m.find? (fun p => p.1 == k)).isSome then
    m.map (fun p => if p.1 == k then (k, v) else p)
  else m ++ [(k, v)]

/-- A `corev1.ConfigMap` restricted to the fields the controller reads or
writes: name, labels, data (all in the fixed target namespace). -/
structure ConfigMap where
  name : String
  labels : List (String × String)
  data : List (String × String)
deriving DecidableEq, Repr

/-- The ConfigMaps of the target namespace. -/
abbrev Cluster := List ConfigMap

/-- Errors of the cluster client: `notFound` (what `apierrors.IsNotFound`
recognises), `alreadyExists`, and any other genuine error. -/
inductive KErr where
  | notFound
  | alreadyExists
  | other (msg : String)
deriving DecidableEq, Repr

/-- Injectable failures of the cluster client, keyed by resource name. -/
structure Faults where
  getErr : String → Option String
  createErr : String → Option String
  updateErr : String → Option String
  deleteErr : String → Option String
  listErr : Option String

/-- The fault-free client. -/
def noFaults : Faults :=
  ⟨fun _ => none, fun _ => none, fun _ => none, fun _ => none, none⟩

/-- `r.Get(ctx, key, cm)`: injected fault, else the resource or `notFound`. -/
def kGet (f : Faults) (st : Cluster) (name : String) : Except KErr ConfigMap :=
  match f.getErr name with
  | some m => .error (.other m)
  | none =>
    match st.find? (fun cm => cm.name == name) with
    | some cm => .ok cm
    | none => .error .notFound

/-- `r.Create(ctx, cm)`: injected fault, `alreadyExists`, or append. -/
def kCreate (f : Faults) (st : Cluster) (cm : ConfigMap) : Except KErr Cluster :=
  match f.createErr cm.name with
  | some m => .error (.other m)
  | none =>
    if (st.find? (fun c => c.name == cm.name)).isSome then .error .alreadyExists
    else .ok (st ++ [cm])

/-- `r.Update(ctx, cm)`: injected fault, `notFound`, or in-place replace. -/
def kUpdate (f : Faults) (st : Cluster) (cm : ConfigMap) : Except KErr Cluster :=
  match f.updateErr cm.name with
  | some m => .error (.other m)
  | none =>
    if (st.find? (fun c => c.name == cm.name)).isSome then
      .ok (st.map fun c => if c.name == cm.name then cm else c)
    else .error .notFound

/-- `r.Delete(ctx, cm)`: injected fault, `notFound`, or removal. -/
def kDelete (f : Faults) (st : Cluster) (name : String) : Except KErr Cluster :=
  match f.deleteErr name with
  | some m => .error (.other m)
  | none =>
    if (st.find? (fun c => c.name == name)).isSome then
      .ok (st.filter fun c => !(c.name == name))
    else .error .notFound

/-- `r.List(ctx, cmList, InNamespace, MatchingLabels{key: val})`. -/
def kList (f : Faults) (st : Cluster) (key val : String) : Except KErr (List ConfigMap) :=
  match f.listErr with
  | some m => .error (.other m)
  | none => .ok (st.filter fun cm => lookupA cm.labels key == some val)

/-- The resource carries the ownership label `app=cabundle-operator`. -/
def isOwned (cm : ConfigMap) : Bool :=
  lookupA cm.labels "app" == some "cabundle-operator"

/-- The identifiers owned by the system: names of resources in the target
namespace carrying the ownership label. -/
def ownedNames (st : Cluster) : List String :=
  (st.filter isOwned).map (·.name)

/-- `{normalize(name) : name in F}` as a list of identifiers. -/
def normalizedNames (bundles : List PEMFile) : List String :=
  bundles.map (fun b => reName b.filename)

/-- A cluster write call issued by the controller (create/update/delete,
keyed by resource name). -/
inductive WriteOp where
  | create (name : String)
  | update (name : String)
  | delete (name : String)
deriving DecidableEq, Repr

/-- Result of a stateful controller step: the cluster afterwards, the trace
of attempted write calls, and the returned error if any. -/
structure Res where
  st : Cluster
  trace : List WriteOp
  err : Option KErr
deriving DecidableEq, Repr

/-! ## Controller function embeddings -/

/-- Embedding of `checkConfigMap`: get the ConfigMap named
`reName(bundle.Filename)`; on any error report `false`; otherwise report
whether `cm.Data[bundle.Filename]` exists and equals the bundle content.
(The lookup key is `bundle.Filename`, exactly as in the source.) -/
def checkConfigMap (f : Faults) (st : Cluster) (bundle : PEMFile) : Bool :=
  let cmName := reName bundle.filename
  match kGet f st cmName with
  | .error _ => false
  | .ok cm =>
    match lookupA cm.data bundle.filename with
    | some existingBundle => existingBundle == bundle.content
    | none => false

/-- Embedding of `createOrUpdateConfigMap`: get by normalized name; on
`notFound` create a fresh ConfigMap with the ownership label and the payload
under `CAKey`; on another get error return it; otherwise set
`cm.Data[CAKey]` and update.  The trace records the attempted write call. -/
def createOrUpdateConfigMap (f : Faults) (st : Cluster) (bundle : PEMFile) : Res :=
  let cmName := reName bundle.filename
  match kGet f st cmName with
  | .error .notFound =>
    let newCm : ConfigMap :=
      ⟨cmName, [("app", "cabundle-operator")], [(CAKey, bundle.content)]⟩
    match kCreate f st newCm with
    | .ok st' => ⟨st', [.create cmName], none⟩
    | .error e => ⟨st, [.create cmName], some e⟩
  | .error e => ⟨st, [], some e⟩
  | .ok cm =>
    let cm' := { cm with data := insertA cm.data CAKey bundle.content }
    match kUpdate f st cm' with
    | .ok st' => ⟨st', [.update cmName], none⟩
    | .error e => ⟨st, [.update cmName], some e⟩

/-- Embedding of the per-bundle loop of `Reconcile` (lines 80–91): skip a
bundle whose check passes, otherwise create-or-update; a create/update error
aborts the loop and is returned. -/
def convergeLoop (f : Faults) (st : Cluster) : List PEMFile → Res
  | [] => ⟨st, [], none⟩
  | b :: rest =>
    if checkConfigMap f st b then convergeLoop f st rest
    else
      let r := createOrUpdateConfigMap f st b
      match r.err with
      | some e => ⟨r.st, r.trace, some e⟩
      | none =>
        let r2 := convergeLoop f r.st rest
        ⟨r2.st, r.trace ++ r2.trace, r2.err⟩

/-- Embedding of `GetBundleConfigMaps`: list the ConfigMaps of the target
namespace carrying label `app=cabundle-operator` and return their names. -/
def GetBundleConfigMaps (f : Faults) (st : Cluster) : Except KErr (List String) :=
  match kList f st "app" "cabundle-operator" with
  | .error e => .error e
  | .ok cms => .ok (cms.map (·.name))

/-- Embedding of `DeleteBundleConfigMap`: get by name; a get error is passed
through `client.IgnoreNotFound` (so `notFound` is success); otherwise delete
the fetched ConfigMap. -/
def DeleteBundleConfigMap (f : Faults) (st : Cluster) (name : String) : Res :=
  match kGet f st name with
  | .error e => ⟨st, [], if e == .notFound then none else some e⟩
  | .ok cm =>
    match kDelete f st cm.name with
    | .ok st' => ⟨st', [.delete cm.name], none⟩
    | .error e => ⟨st, [.delete cm.name], some e⟩

/-- Assignment into the Go `map[string]bool` `existingBundles`. -/
def setKey (m : List (String × Bool)) (k : String) (v : Bool) : List (String × Bool) :=
  if (m.find? (fun p => p.1 == k)).isSome then
    m.map (fun p => if p.1 == k then (k, v) else p)
  else m ++ [(k, v)]

/-- The `existingBundles` map of `CleanUpConfigMaps`: every listed name maps
to `false`, then every normalized bundle name already present is set to
`true`.  Association pairs are kept in insertion order, which serves as the
(one admissible) iteration order of the Go map range. -/
def buildStalePairs (bundleCMNames : List String) (bundles : List PEMFile) :
    List (String × Bool) :=
  let m0 := bundleCMNames.foldl (fun m b => setKey m b false) []
  bundles.foldl
    (fun m b =>
      let cmName := reName b.filename
      if (m.find? (fun p => p.1 == cmName)).isSome then setKey m cmName true else m)
    m0

/-- The `for cmName, found := range existingBundles` loop of
`CleanUpConfigMaps`: delete every name still marked `false`; a delete error
is returned immediately. -/
def sweepStales (f : Faults) (st : Cluster) : List (String × Bool) → Res
  | [] => ⟨st, [], none⟩
  | (cmName, found) :: rest =>
    if found then sweepStales f st rest
    else
      let r := DeleteBundleConfigMap f st cmName
      match r.err with
      | some e => ⟨r.st, r.trace, some e⟩
      | none =>
        let r2 := sweepStales f r.st rest
        ⟨r2.st, r.trace ++ r2.trace, r2.err⟩

/-- Embedding of `CleanUpConfigMaps`: list owned names, build the
`existingBundles` marking, then sweep the stale ones. -/
def CleanUpConfigMaps (f : Faults) (st : Cluster) (bundles : List PEMFile) : Res :=
  match GetBundleConfigMaps f st with
  | .error e => ⟨st, [], some e⟩
  | .ok bundleCMNames => sweepStales f st (buildStalePairs bundleCMNames bundles)

/-- Embedding of the converge-then-reap tail of `Reconcile` (lines 80–98):
the per-bundle loop, then — only when it succeeded — `CleanUpConfigMaps`
over the same fetched set. -/
def reconcileConvergeReap (f : Faults) (st : Cluster) (bundles : List PEMFile) : Res :=
  let r := convergeLoop f st bundles
  match r.err with
  | some _ => r
  | none =>
    let r2 := CleanUpConfigMaps f r.st bundles
    ⟨r2.st, r.trace ++ r2.trace, r2.err⟩

/-! ## Source fetcher

`DownloadPEMBundles` is embedded over an abstract HTTP environment: the
outcome of the listing request, the outcome of `html.Parse` on its body, and
the outcome of each per-file GET.  The HTML document is a tree; `walk`
collects `href` attributes of `a` elements ending in `.pem` or `.crt`,
exactly like the closure `walk` in the source. -/

/-- Go `strings.HasSuffix`. -/
def hasSuffix (s suffix : String) : Bool :=
  List.isSuffixOf suffix.data s.data

/-- A node of the parsed HTML document: an element with tag, attributes and
children, or any non-element node with children. -/
inductive HNode where
  | elem (tag : String) (attrs : List (String × String)) (children : List HNode)
  | other (children : List HNode)

mutual

/-- The `walk` closure of `DownloadPEMBundles`: at an `a` element, every
`href` attribute value ending in `.pem` or `.crt` is collected; children are
walked in order. -/
def walk : HNode → List String
  | .elem tag attrs children =>
    (if tag == "a" then
      attrs.filterMap (fun a =>
        if a.1 == "href" && (hasSuffix a.2 ".pem" || hasSuffix a.2 ".crt") then
          some a.2
        else none)
     else []) ++ walkList children
  | .other children => walkList children

/-- `walk` over a child list, left to right. -/
def walkList : List HNode → List String
  | [] => []
  | n :: ns => walk n ++ walkList ns

end

/-- Outcome of one per-file GET: transport failure of `Do`, failure of
`io.ReadAll`, or a response with status code and body.  (The source never
inspects the per-file status code.) -/
inductive DlResult where
  | transportErr (msg : String)
  | readErr (msg : String)
  | ok (status : Nat) (body : String)
deriving DecidableEq, Repr

/-- Abstract HTTP environment of one `DownloadPEMBundles` call. -/
structure FetchEnv where
  /-- error from `http.NewRequestWithContext` for the listing request -/
  newReqErr : Option String
  /-- transport error from `http.DefaultClient.Do` on the listing request -/
  doErr : Option String
  /-- status code of the listing response -/
  status : Nat
  /-- outcome of `html.Parse` on the listing body -/
  parsed : Except String HNode
  /-- outcome of the GET for each discovered file name -/
  download : String → DlResult

/-- The per-file download loop of `DownloadPEMBundles`: results are
accumulated in order; the first failing download aborts with its error. -/
def downloadLoop (env : FetchEnv) : List String → Except String (List PEMFile)
  | [] => .ok []
  | name :: rest =>
    match env.download name with
    | .transportErr m => .error m
    | .readErr m => .error m
    | .ok _status data =>
      match downloadLoop env rest with
      | .ok results => .ok (⟨name, data⟩ :: results)
      | .error e => .error e

/-- Embedding of `DownloadPEMBundles`: listing request, status check
(`resp.StatusCode != http.StatusOK`, i.e. `≠ 200`), `html.Parse`, `walk`,
then one download per discovered name. -/
def DownloadPEMBundles (env : FetchEnv) : Except String (List PEMFile) :=
  match env.newReqErr with
  | some m => .error m
  | none =>
    match env.doErr with
    | some m => .error m
    | none =>
      if env.status ≠ 200 then
        .error ("failed to list bundles: " ++ toString env.status)
      else
        match env.parsed with
        | .error m => .error m
        | .ok doc => downloadLoop env (walk doc)

/-- The file names discovered in the listing (empty when parsing failed). -/
def discoveredNames (env : FetchEnv) : List String :=
  match env.parsed with
  | .ok doc => walk doc
  | .error _ => []

/-! ## Periodic trigger

`Runner.Start` is a `select` loop: a tick runs `genericEventChannel` (which
enqueues exactly one synthetic event and returns nil); `ctx.Done` returns,
firing the deferred `ticker.Stop()` and `close(r.eventCh)`.  The loop is
embedded as a fold over the sequence of select outcomes it observes. -/

/-- One observed outcome of the `select` in `Runner.Start`: the ticker fired,
or the context was cancelled. -/
inductive TrigSignal where
  | tick
  | cancel
deriving DecidableEq, Repr

/-- The object name enqueued by `genericEventChannel`. -/
def genericEventName : String := "periodic-cabundle-enqueue"

/-- Observable outcome of a run of `Runner.Start`: the enqueued event object
names in order, whether the event channel was closed, and whether the ticker
was stopped. -/
structure RunnerOut where
  events : List String
  closed : Bool
  tickerStopped : Bool
deriving DecidableEq, Repr

/-- Embedding of the `Runner.Start` loop: each tick enqueues one
`genericEventName` event; cancellation returns, stopping the ticker and
closing the channel, so no later signal is processed. -/
def runnerStart : List TrigSignal → RunnerOut
  | [] => ⟨[], false, false⟩
  | .tick :: rest =>
    let o := runnerStart rest
    ⟨genericEventName :: o.events, o.closed, o.tickerStopped⟩
  | .cancel :: _ => ⟨[], true, true⟩

/-! ## Concrete instances used by the theorems below -/

/-- Modelled from the spec's words as amended for C4: trim the two
recognized suffixes in order, then replace each single character outside
`[a-zA-Z0-9]` by the separator while lowercasing, in one pass. -/
def specNormalizeChar (name : String) : String :=
  String.mk (normCharList (trimSuffix (trimSuffix name ".pem") ".crt").data)
where
  /-- one-pass per-character normalization -/
  normCharList : List Char → List Char
    | [] => []
    | c :: cs => (if goAlnum c then c.toLower else '-') :: normCharList cs

/-- The concrete faulty client and cluster used to exhibit the reap abort:
deleting `s1` fails with a genuine error, `s1` and `s2` are both owned. -/
def c3Faults : Faults :=
  { noFaults with deleteErr := fun n => if n == "s1" then some "boom" else none }

/-- Cluster with the two owned resources `s1` and `s2`. -/
def c3State : Cluster :=
  [⟨"s1", [("app", "cabundle-operator")], []⟩,
   ⟨"s2", [("app", "cabundle-operator")], []⟩]

/-- A fetch environment whose listing request succeeds with the 2xx status
204 and an empty parseable document, and whose downloads all succeed. -/
def env204 : FetchEnv :=
  ⟨none, none, 204, .ok (.elem "html" [] []), fun _ => .ok 200 ""⟩

/-- Concrete cluster for the C10 witness: one unlabeled ConfigMap `a`. -/
def c10State : Cluster := [⟨"a", [], [("ca.crt", "OLD")]⟩]

/-- The unlabeled ConfigMap of `c10State`. -/
def c10CM : ConfigMap := ⟨"a", [], [("ca.crt", "OLD")]⟩

/-- The bundle colliding with `c10CM` after normalization. -/
def c10B : PEMFile := ⟨"a.pem", "NEW"⟩

/-- Faulty client for the C6 witness: creating `b` fails. -/
def c6Faults : Faults :=
  { noFaults with createErr := fun n => if n == "b" then some "boom" else none }

/-- The per-file download failed (transport or body read). -/
def dlFails : DlResult → Bool
  | .transportErr _ => true
  | .readErr _ => true
  | .ok _ _ => false

/-- `html.Parse` failed on the listing body. -/
def parseFailed (env : FetchEnv) : Bool :=
  match env.parsed with
  | .error _ => true
  | .ok _ => false

/-- The failure condition of one fetch cycle: request construction or
transport failure, a listing status other than 200, an unparseable listing,
or a failing per-file download among the discovered names. -/
def fetchFails (env : FetchEnv) : Bool :=
  env.newReqErr.isSome || env.doErr.isSome || (env.status != 200) ||
    parseFailed env || (discoveredNames env).any (fun n => dlFails (env.download n))

/-- Whether `DownloadPEMBundles` returned a result. -/
def fetchSucceeded (env : FetchEnv) : Bool :=
  match DownloadPEMBundles env with
  | .ok _ => true
  | .error _ => false

/-- A fetch environment for the C5 witness: one discovered file `r.pem`,
every request succeeding. -/
def envOk : FetchEnv :=
  ⟨none, none, 200, .ok (.elem "a" [("href", "r.pem")] []),
   fun n => .ok 200 ("BODY-" ++ n)⟩

/-- Cluster for the C2 witness: one owned stale resource `bundle-c`. -/
def c2State : Cluster :=
  [⟨"bundle-c", [("app", "cabundle-operator")], [("ca.crt", "CCC")]⟩]

/-- Fetched set for the C2 witness. -/
def c2Bundles : List PEMFile := [⟨"bundle-a.pem", "AAA"⟩, ⟨"bundle-b.crt", "BBB"⟩]

/-! ## Theorems for the claims -/

example : reName "My Root CA.pem" = "my-root-ca" := by decide
example : reName "intermediate.crt" = "intermediate" := by decide
example : reName "a  b.pem" = "a--b" := by decide
example : specNormalize "a  b.pem" = "a-b" := by decide
example : reName "foo.crt.pem" = "foo" := by decide
example : reName "foo.pem.crt" = "foo-pem" := by decide

/-- C1: the claim "a second converge immediately after a successful converge
with the same fetched set performs zero writes" fails on the code: for the
fetched set `[{Filename: "root.pem", Content: "AAA"}]` over an empty cluster
the first converge succeeds (one create), yet `checkConfigMap` looks the
payload up under key `bundle.Filename` while `createOrUpdateConfigMap`
stores it under `CAKey = "ca.crt"`, so the check fails again and the second
converge issues an Update write. -/
theorem secondConvergeStillWrites :
    (convergeLoop noFaults [] [⟨"root.pem", "AAA"⟩]).err = none ∧
    (convergeLoop noFaults [] [⟨"root.pem", "AAA"⟩]).trace = [.create "root"] ∧
    checkConfigMap noFaults (convergeLoop noFaults [] [⟨"root.pem", "AAA"⟩]).st
      ⟨"root.pem", "AAA"⟩ = false ∧
    (convergeLoop noFaults (convergeLoop noFaults [] [⟨"root.pem", "AAA"⟩]).st
      [⟨"root.pem", "AAA"⟩]).trace = [.update "root"] := by
  decide

/-- C9: suffix trimming in `reName` is sequential — `.pem` is stripped
first, then `.crt` — so `"foo.crt.pem"` loses both suffixes and normalizes
to `"foo"` (not `"foo-crt"`), while `"foo.pem.crt"` normalizes to
`"foo-pem"`. -/
theorem reNameTrimsSequentially :
    reName "foo.crt.pem" = "foo" ∧
    reName "foo.crt.pem" ≠ "foo-crt" ∧
    reName "foo.pem.crt" = "foo-pem" := by
  decide

/-- C4 counterexample: the claim says every *run* of characters outside
`[a-zA-Z0-9]` becomes a single separator, but the Go regular expression
`[^a-zA-Z0-9]` replaces every single character, so `"a  b.pem"` (two
spaces) normalizes to `"a--b"`, not to the run-collapsed `"a-b"`. -/
theorem reNameDoesNotCollapseRuns :
    reName "a  b.pem" = "a--b" ∧
    specNormalize "a  b.pem" = "a-b" ∧
    reName "a  b.pem" ≠ specNormalize "a  b.pem" := by
  decide

/-- The two per-character passes of `reName` fuse into the single pass of
`specNormalizeChar`. -/
lemma normCharList_eq (l : List Char) :
    (l.map replChar).map Char.toLower = specNormalizeChar.normCharList l := by
  induction l with
  | nil => rfl
  | cons c cs ih =>
    simp only [List.map_cons, specNormalizeChar.normCharList, ih]
    by_cases h : goAlnum c = true
    · simp [replChar, h]
    · have hr : replChar c = '-' := by simp [replChar, h]
      have hl : Char.toLower '-' = '-' := by decide
      rw [hr, hl, if_neg h]

/-- C4 (amended): `reName` is a total deterministic function that trims the
two recognized suffixes and then replaces every single character outside
`[a-zA-Z0-9]` with the separator and lowercases; the claim's two examples
hold: `reName "My Root CA.pem" = "my-root-ca"` and
`reName "intermediate.crt" = "intermediate"`. -/
theorem reNamePerCharacter :
    (∀ name : String, reName name = specNormalizeChar name) ∧
    reName "My Root CA.pem" = "my-root-ca" ∧
    reName "intermediate.crt" = "intermediate" := by
  refine ⟨fun name => ?_, by decide, by decide⟩
  show String.mk _ = String.mk _
  rw [normCharList_eq]

/-- C7: a delete of a resource that no longer exists is success —
`DeleteBundleConfigMap` gets the resource first, the get reports `notFound`,
and `client.IgnoreNotFound` turns that into a nil error; the state is
untouched and no delete call is issued. -/
theorem deleteNotFoundIsSuccess (f : Faults) (st : Cluster) (name : String)
    (hf : f.getErr name = none) (habs : ∀ cm ∈ st, cm.name ≠ name) :
    DeleteBundleConfigMap f st name = ⟨st, [], none⟩ := by
  unfold DeleteBundleConfigMap kGet
  rw [hf]
  have hfind : st.find? (fun cm => cm.name == name) = none := by
    rw [List.find?_eq_none]
    intro cm hcm
    simpa using habs cm hcm
  rw [hfind]
  rfl

/-- Witness for C7 at a concrete input. -/
theorem deleteNotFoundIsSuccess_witness :
    DeleteBundleConfigMap noFaults [⟨"kept", [], []⟩] "gone" =
      ⟨[⟨"kept", [], []⟩], [], none⟩ :=
  deleteNotFoundIsSuccess noFaults [⟨"kept", [], []⟩] "gone" rfl (by decide)

/-- C8: over any sequence of select outcomes, each timer tick before the
first cancellation enqueues exactly one synthetic event (the
`periodic-cabundle-enqueue` object), and once cancellation is observed the
ticker is stopped, the event channel is closed, and no later tick enqueues
anything. -/
theorem runnerStartSpec :
    ∀ sigs : List TrigSignal,
      (runnerStart sigs).events =
        List.replicate (sigs.takeWhile (fun s => s == TrigSignal.tick)).length
          genericEventName ∧
      (runnerStart sigs).closed = sigs.any (fun s => s == TrigSignal.cancel) ∧
      (runnerStart sigs).tickerStopped = sigs.any (fun s => s == TrigSignal.cancel) := by
  intro sigs
  induction sigs with
  | nil => refine ⟨rfl, rfl, rfl⟩
  | cons s rest ih =>
    cases s with
    | tick =>
      simpa [runnerStart, List.takeWhile, List.replicate] using ih
    | cancel =>
      exact ⟨rfl, rfl, rfl⟩

/-- C3 counterexample: with an empty fetched set both `s1` and `s2` are
stale, the delete of `s1` fails with a genuine error, and
`CleanUpConfigMaps` returns that error immediately — the deletion of the
other stale resource `s2` is never attempted (its delete call is absent
from the trace and it is still present afterwards). -/
theorem reapStopsAtFirstFailure :
    CleanUpConfigMaps c3Faults c3State [] =
      ⟨c3State, [.delete "s1"], some (.other "boom")⟩ ∧
    "s2" ∈ ownedNames c3State ∧
    normalizedNames [] = [] ∧
    WriteOp.delete "s2" ∉ (CleanUpConfigMaps c3Faults c3State []).trace := by
  decide

/-- C2 counterexample: the cluster holds a ConfigMap named `a` without the
ownership label; the fetched set `[{Filename: "a.pem"}]` normalizes to
`{"a"}`.  Converge takes the update path (which never adds the label) and
reap succeeds; afterwards the owned identifier set is empty, not `{"a"}`. -/
theorem unlabeledCollisionBreaksSetEquality :
    (reconcileConvergeReap noFaults [⟨"a", [], []⟩] [⟨"a.pem", "X"⟩]).err = none ∧
    normalizedNames [⟨"a.pem", "X"⟩] = ["a"] ∧
    ownedNames (reconcileConvergeReap noFaults [⟨"a", [], []⟩] [⟨"a.pem", "X"⟩]).st = [] := by
  decide

/-- C5 counterexample: the claim says fetch fails exactly on transport
failure, non-2xx status, unparseable listing, or a per-file download
failure; but the code rejects every status other than 200
(`resp.StatusCode != http.StatusOK`), so a 204 listing — a 2xx status with
no transport, parse, or download failure — is rejected. -/
theorem status204IsRejected :
    DownloadPEMBundles env204 = .error "failed to list bundles: 204" ∧
    env204.newReqErr = none ∧
    env204.doErr = none ∧
    200 ≤ env204.status ∧
    env204.status < 300 ∧
    discoveredNames env204 = [] := by
  refine ⟨rfl, rfl, rfl, by decide, by decide, by decide⟩

/-- A successful `kGet` returns a member of the cluster with the requested
name. -/
lemma kGet_ok {f : Faults} {st : Cluster} {n : String} {cm : ConfigMap}
    (h : kGet f st n = .ok cm) : cm ∈ st ∧ cm.name = n := by
  unfold kGet at h
  cases hf : f.getErr n with
  | some m => rw [hf] at h; exact absurd h (by simp)
  | none =>
    rw [hf] at h
    cases hfind : st.find? (fun c => c.name == n) with
    | some cm' =>
      rw [hfind] at h
      cases h
      refine ⟨List.mem_of_find?_eq_some hfind, ?_⟩
      have := List.find?_some hfind
      simpa using this
    | none => rw [hfind] at h; exact absurd h (by simp)

/-- With no fault injected, listing the owned ConfigMaps returns exactly
`ownedNames`. -/
lemma GetBundleConfigMaps_noFaults (st : Cluster) :
    GetBundleConfigMaps noFaults st = .ok (ownedNames st) := rfl

/-- C10: the update path of `createOrUpdateConfigMap` replaces only the data
entry under `CAKey` of the existing ConfigMap: the labels are carried over
unchanged and the ownership label is never added, so when the pre-existing
resource lacks the ownership label its payload is overwritten yet its name
never appears in the reaper's label-filtered listing. -/
theorem updatePreservesLabels (f : Faults) (st : Cluster) (b : PEMFile) (cm : ConfigMap)
    (hget : kGet f st (reName b.filename) = .ok cm)
    (hupd : f.updateErr cm.name = none) :
    createOrUpdateConfigMap f st b =
      ⟨st.map (fun c =>
          if c.name == cm.name then { cm with data := insertA cm.data CAKey b.content } else c),
       [.update (reName b.filename)], none⟩ ∧
    ({ cm with data := insertA cm.data CAKey b.content }).labels = cm.labels ∧
    (isOwned cm = false →
      cm.name ∉ ownedNames (createOrUpdateConfigMap f st b).st ∧
      GetBundleConfigMaps noFaults (createOrUpdateConfigMap f st b).st =
        .ok (ownedNames (createOrUpdateConfigMap f st b).st)) := by
  obtain ⟨hmem, hname⟩ := kGet_ok hget
  have hfind : (st.find? (fun c => c.name == cm.name)).isSome = true := by
    rw [List.find?_isSome]
    exact ⟨cm, hmem, by simp⟩
  have heq : createOrUpdateConfigMap f st b =
      ⟨st.map (fun c =>
          if c.name == cm.name then { cm with data := insertA cm.data CAKey b.content } else c),
       [.update (reName b.filename)], none⟩ := by
    unfold createOrUpdateConfigMap kUpdate
    simp only [hget, hupd, hfind, if_true]
  refine ⟨heq, rfl, fun hun => ?_⟩
  rw [heq]
  refine ⟨?_, GetBundleConfigMaps_noFaults _⟩
  intro hcontra
  simp only [ownedNames, List.mem_map, List.mem_filter] at hcontra
  obtain ⟨x, ⟨hx, hxo⟩, hxn⟩ := hcontra
  obtain ⟨c, _hc, hgc⟩ := hx
  by_cases hcn : (c.name == cm.name) = true
  · rw [if_pos hcn] at hgc
    rw [← hgc] at hxo
    have : isOwned { cm with data := insertA cm.data CAKey b.content } = isOwned cm := rfl
    rw [this, hun] at hxo
    exact absurd hxo (by simp)
  · rw [if_neg hcn] at hgc
    rw [← hgc] at hxn
    exact hcn (by simp [hxn])

/-- Witness for C10 at a concrete input. -/
theorem updatePreservesLabels_witness :
    createOrUpdateConfigMap noFaults c10State c10B =
      ⟨c10State.map (fun c =>
          if c.name == c10CM.name then { c10CM with data := insertA c10CM.data CAKey c10B.content } else c),
       [.update (reName c10B.filename)], none⟩ ∧
    ({ c10CM with data := insertA c10CM.data CAKey c10B.content }).labels = c10CM.labels ∧
    (isOwned c10CM = false →
      c10CM.name ∉ ownedNames (createOrUpdateConfigMap noFaults c10State c10B).st ∧
      GetBundleConfigMaps noFaults (createOrUpdateConfigMap noFaults c10State c10B).st =
        .ok (ownedNames (createOrUpdateConfigMap noFaults c10State c10B).st)) :=
  updatePreservesLabels noFaults c10State c10B c10CM (by rfl) rfl

/-- A failing `createOrUpdateConfigMap` leaves the cluster unchanged. -/
lemma createOrUpdate_err_st (f : Faults) (st : Cluster) (b : PEMFile) (e : KErr)
    (h : (createOrUpdateConfigMap f st b).err = some e) :
    (createOrUpdateConfigMap f st b).st = st := by
  revert h
  unfold createOrUpdateConfigMap
  dsimp only
  split
  · split
    · intro h; exact absurd h (by simp)
    · intro _; rfl
  · intro _; rfl
  · split
    · intro h; exact absurd h (by simp)
    · intro _; rfl

/-- Unfolding of `convergeLoop` on a cons cell whose check fails. -/
lemma convergeLoop_cons_false {f : Faults} {st : Cluster} {b : PEMFile}
    (l : List PEMFile) (hchk : checkConfigMap f st b = false) :
    convergeLoop f st (b :: l) =
      (match (createOrUpdateConfigMap f st b).err with
       | some e => ⟨(createOrUpdateConfigMap f st b).st,
           (createOrUpdateConfigMap f st b).trace, some e⟩
       | none =>
         ⟨(convergeLoop f (createOrUpdateConfigMap f st b).st l).st,
          (createOrUpdateConfigMap f st b).trace ++
            (convergeLoop f (createOrUpdateConfigMap f st b).st l).trace,
          (convergeLoop f (createOrUpdateConfigMap f st b).st l).err⟩) := by
  simp only [convergeLoop, hchk, Bool.false_eq_true, if_false]

/-- The loop of `Reconcile`, run on `pre ++ b :: post`: when `pre` converges
cleanly and the create/update for `b` fails, the loop stops there. -/
lemma convergeAbortAux (f : Faults) (b : PEMFile) (post : List PEMFile) (e : KErr) :
    ∀ (pre : List PEMFile) (st : Cluster),
      (convergeLoop f st pre).err = none →
      checkConfigMap f (convergeLoop f st pre).st b = false →
      (createOrUpdateConfigMap f (convergeLoop f st pre).st b).err = some e →
      convergeLoop f st (pre ++ b :: post) =
        ⟨(createOrUpdateConfigMap f (convergeLoop f st pre).st b).st,
         (convergeLoop f st pre).trace ++
           (createOrUpdateConfigMap f (convergeLoop f st pre).st b).trace,
         some e⟩ := by
  intro pre
  induction pre with
  | nil =>
    intro st _h1 h2 h3
    simp only [convergeLoop] at h2 h3
    rw [List.nil_append, convergeLoop_cons_false post h2, h3]
    simp [convergeLoop]
  | cons a rest ih =>
    intro st h1 h2 h3
    by_cases hchk : checkConfigMap f st a = true
    · have hred : convergeLoop f st (a :: rest) = convergeLoop f st rest := by
        simp only [convergeLoop, hchk, if_true]
      rw [hred] at h1 h2 h3
      have : convergeLoop f st ((a :: rest) ++ b :: post) =
          convergeLoop f st (rest ++ b :: post) := by
        simp only [List.cons_append, convergeLoop, hchk, if_true]
        rfl
      rw [this, ih st h1 h2 h3, hred]
    · rw [Bool.not_eq_true] at hchk
      cases her : (createOrUpdateConfigMap f st a).err with
      | some e' =>
        rw [convergeLoop_cons_false rest hchk, her] at h1
        exact absurd h1 (by simp)
      | none =>
        have hred := @convergeLoop_cons_false f st a rest hchk
        rw [her] at hred
        rw [hred] at h1 h2 h3
        simp only at h1 h2 h3
        have hihl := ih (createOrUpdateConfigMap f st a).st h1 h2 h3
        have hredl := @convergeLoop_cons_false f st a (rest ++ b :: post) hchk
        rw [her] at hredl
        rw [List.cons_append, hredl, hihl, hred]
        simp [List.append_assoc]

/-- C6: partial-failure containment in convergence — when the records of
`pre` have been applied and the create/update for `b` fails with `e`, the
cycle keeps the resources applied for `pre` (the failing call leaves the
cluster as the converge of `pre` left it), attempts nothing for the records
after `b` (the trace ends with the failing call; `CleanUpConfigMaps` is not
reached), and surfaces `e` to the caller. -/
theorem convergeAbortsOnWriteError (f : Faults) (st : Cluster) (pre : List PEMFile)
    (b : PEMFile) (post : List PEMFile) (e : KErr)
    (h1 : (convergeLoop f st pre).err = none)
    (h2 : checkConfigMap f (convergeLoop f st pre).st b = false)
    (h3 : (createOrUpdateConfigMap f (convergeLoop f st pre).st b).err = some e) :
    reconcileConvergeReap f st (pre ++ b :: post) =
      ⟨(convergeLoop f st pre).st,
       (convergeLoop f st pre).trace ++
         (createOrUpdateConfigMap f (convergeLoop f st pre).st b).trace,
       some e⟩ := by
  have hc := convergeAbortAux f b post e pre st h1 h2 h3
  have hst := createOrUpdate_err_st f (convergeLoop f st pre).st b e h3
  unfold reconcileConvergeReap
  rw [hc, hst]

/-- Witness for C6 at a concrete input: fetched records `a.pem`, `b.pem`,
`c.pem` over an empty cluster, with the create of `b` failing. -/
theorem convergeAbortsOnWriteError_witness :
    reconcileConvergeReap c6Faults [] ([⟨"a.pem", "A"⟩] ++ ⟨"b.pem", "B"⟩ :: [⟨"c.pem", "C"⟩]) =
      ⟨(convergeLoop c6Faults [] [⟨"a.pem", "A"⟩]).st,
       (convergeLoop c6Faults [] [⟨"a.pem", "A"⟩]).trace ++
         (createOrUpdateConfigMap c6Faults (convergeLoop c6Faults [] [⟨"a.pem", "A"⟩]).st
           ⟨"b.pem", "B"⟩).trace,
       some (.other "boom")⟩ :=
  convergeAbortsOnWriteError c6Faults [] [⟨"a.pem", "A"⟩] ⟨"b.pem", "B"⟩ [⟨"c.pem", "C"⟩]
    (.other "boom") (by decide) (by decide) (by decide)

/-- A failing `DeleteBundleConfigMap` leaves the cluster unchanged. -/
lemma delete_err_st (f : Faults) (st : Cluster) (nm : String) (e : KErr)
    (h : (DeleteBundleConfigMap f st nm).err = some e) :
    (DeleteBundleConfigMap f st nm).st = st := by
  revert h
  unfold DeleteBundleConfigMap
  split
  · intro _; rfl
  · split
    · intro h; exact absurd h (by simp)
    · intro _; rfl

/-- Unfolding of `sweepStales` on a stale (unmarked) head. -/
lemma sweepStales_cons_false {f : Faults} {st : Cluster} {nm : String}
    (l : List (String × Bool)) :
    sweepStales f st ((nm, false) :: l) =
      (match (DeleteBundleConfigMap f st nm).err with
       | some e => ⟨(DeleteBundleConfigMap f st nm).st,
           (DeleteBundleConfigMap f st nm).trace, some e⟩
       | none =>
         ⟨(sweepStales f (DeleteBundleConfigMap f st nm).st l).st,
          (DeleteBundleConfigMap f st nm).trace ++
            (sweepStales f (DeleteBundleConfigMap f st nm).st l).trace,
          (sweepStales f (DeleteBundleConfigMap f st nm).st l).err⟩) := by
  simp only [sweepStales, Bool.false_eq_true, if_false]

/-- The delete sweep of `CleanUpConfigMaps`, run on `pre ++ (nm, false) ::
post`: when the sweep of `pre` succeeds and the delete of `nm` fails, the
sweep stops there. -/
lemma sweepAbortAux (f : Faults) (nm : String) (post : List (String × Bool)) (e : KErr) :
    ∀ (pre : List (String × Bool)) (st : Cluster),
      (sweepStales f st pre).err = none →
      (DeleteBundleConfigMap f (sweepStales f st pre).st nm).err = some e →
      sweepStales f st (pre ++ (nm, false) :: post) =
        ⟨(sweepStales f st pre).st,
         (sweepStales f st pre).trace ++
           (DeleteBundleConfigMap f (sweepStales f st pre).st nm).trace,
         some e⟩ := by
  intro pre
  induction pre with
  | nil =>
    intro st _h1 h2
    simp only [sweepStales] at h2
    rw [List.nil_append, sweepStales_cons_false post, h2,
      delete_err_st f st nm e h2]
    simp [sweepStales]
  | cons p rest ih =>
    intro st h1 h2
    obtain ⟨pn, pf⟩ := p
    cases pf with
    | true =>
      have hred : sweepStales f st ((pn, true) :: rest) = sweepStales f st rest := by
        simp [sweepStales]
      rw [hred] at h1 h2
      have : sweepStales f st (((pn, true) :: rest) ++ (nm, false) :: post) =
          sweepStales f st (rest ++ (nm, false) :: post) := by
        rw [List.cons_append]
        simp [sweepStales]
      rw [this, ih st h1 h2, hred]
    | false =>
      cases her : (DeleteBundleConfigMap f st pn).err with
      | some e' =>
        rw [sweepStales_cons_false rest, her] at h1
        exact absurd h1 (by simp)
      | none =>
        have hred := @sweepStales_cons_false f st pn rest
        rw [her] at hred
        rw [hred] at h1 h2
        simp only at h1 h2
        have hihl := ih (DeleteBundleConfigMap f st pn).st h1 h2
        have hredl := @sweepStales_cons_false f st pn (rest ++ (nm, false) :: post)
        rw [her] at hredl
        rw [List.cons_append, hredl, hihl, hred]
        simp [List.append_assoc]

/-- C3 (amended): `CleanUpConfigMaps` is fail-fast, not best-effort — when
the owned listing succeeds, the `existingBundles` iteration reaches a stale
name `nm` whose delete fails with a genuine error `e` after a clean sweep of
the entries before it, the error is returned immediately: the result is the
cluster and trace of the sweep up to the failing delete, and the stale
entries after `nm` are not attempted in that sweep. -/
theorem cleanUpAbortsOnDeleteError (f : Faults) (st : Cluster) (bundles : List PEMFile)
    (cmNames : List String) (pre post : List (String × Bool)) (nm : String) (e : KErr)
    (hlist : GetBundleConfigMaps f st = .ok cmNames)
    (hpairs : buildStalePairs cmNames bundles = pre ++ (nm, false) :: post)
    (hpre : (sweepStales f st pre).err = none)
    (hfail : (DeleteBundleConfigMap f (sweepStales f st pre).st nm).err = some e) :
    CleanUpConfigMaps f st bundles =
      ⟨(sweepStales f st pre).st,
       (sweepStales f st pre).trace ++
         (DeleteBundleConfigMap f (sweepStales f st pre).st nm).trace,
       some e⟩ := by
  unfold CleanUpConfigMaps
  rw [hlist]
  dsimp only
  rw [hpairs]
  exact sweepAbortAux f nm post e pre st hpre hfail

/-- Witness for the amended C3 at a concrete input: both `s1` and `s2` are
stale, the delete of `s1` fails, and the sweep never reaches `s2`. -/
theorem cleanUpAbortsOnDeleteError_witness :
    CleanUpConfigMaps c3Faults c3State [] =
      ⟨(sweepStales c3Faults c3State []).st,
       (sweepStales c3Faults c3State []).trace ++
         (DeleteBundleConfigMap c3Faults (sweepStales c3Faults c3State []).st "s1").trace,
       some (.other "boom")⟩ :=
  cleanUpAbortsOnDeleteError c3Faults c3State [] ["s1", "s2"] [] [("s2", false)] "s1"
    (.other "boom") (by rfl) (by decide) (by decide) (by decide)

/-- A successful download loop covers exactly the requested names and
returns, per name, the downloaded body. -/
lemma downloadLoop_ok (env : FetchEnv) :
    ∀ (names : List String) (results : List PEMFile),
      downloadLoop env names = .ok results →
      results.map (·.filename) = names ∧
      ∀ r ∈ results, ∃ s, env.download r.filename = .ok s r.content := by
  intro names
  induction names with
  | nil =>
    intro results h
    simp only [downloadLoop] at h
    cases h
    exact ⟨rfl, by simp⟩
  | cons name rest ih =>
    intro results h
    simp only [downloadLoop] at h
    cases hd : env.download name with
    | transportErr m => rw [hd] at h; exact absurd h (by simp)
    | readErr m => rw [hd] at h; exact absurd h (by simp)
    | ok s data =>
      rw [hd] at h
      cases hrec : downloadLoop env rest with
      | error e => rw [hrec] at h; exact absurd h (by simp)
      | ok rs =>
        rw [hrec] at h
        cases h
        obtain ⟨ihmap, ihdl⟩ := ih rs hrec
        refine ⟨by simp [ihmap], ?_⟩
        intro r hr
        rcases List.mem_cons.mp hr with hr | hr
        · subst hr; exact ⟨s, hd⟩
        · exact ihdl r hr

/-- The download loop succeeds exactly when no requested download fails. -/
lemma downloadLoop_isOk (env : FetchEnv) :
    ∀ names : List String,
      (match downloadLoop env names with
       | .ok _ => true
       | .error _ => false) = !names.any (fun n => dlFails (env.download n)) := by
  intro names
  induction names with
  | nil => rfl
  | cons name rest ih =>
    simp only [downloadLoop, List.any_cons]
    cases hd : env.download name with
    | transportErr m => simp [dlFails]
    | readErr m => simp [dlFails]
    | ok s data =>
      simp only [dlFails, Bool.false_or]
      cases hrec : downloadLoop env rest with
      | error e => rw [hrec] at ih; simpa using ih
      | ok rs => rw [hrec] at ih; simpa using ih

/-- C5 (amended): fetch is all-or-nothing — a returned result covers every
discovered bundle name with its downloaded content, and the cycle fails
exactly on request/transport failure, a non-200 listing status, an
unparseable listing, or a per-file download failure. -/
theorem fetchAllOrNothing :
    ∀ env : FetchEnv,
      (∀ results, DownloadPEMBundles env = .ok results →
        results.map (·.filename) = discoveredNames env ∧
        ∀ r ∈ results, ∃ s, env.download r.filename = .ok s r.content) ∧
      fetchSucceeded env = !fetchFails env := by
  intro env
  obtain ⟨nre, de, stt, prs, dl⟩ := env
  cases nre with
  | some m =>
    refine ⟨fun results h => absurd h (by simp [DownloadPEMBundles]), ?_⟩
    simp [fetchSucceeded, DownloadPEMBundles, fetchFails]
  | none =>
  cases de with
  | some m =>
    refine ⟨fun results h => absurd h (by simp [DownloadPEMBundles]), ?_⟩
    simp [fetchSucceeded, DownloadPEMBundles, fetchFails]
  | none =>
  by_cases hs : stt = 200
  · subst hs
    cases prs with
    | error m =>
      refine ⟨fun results h => absurd h (by simp [DownloadPEMBundles]), ?_⟩
      simp [fetchSucceeded, DownloadPEMBundles, fetchFails, parseFailed]
    | ok doc =>
      have hred : DownloadPEMBundles ⟨none, none, 200, .ok doc, dl⟩ =
          downloadLoop ⟨none, none, 200, .ok doc, dl⟩ (walk doc) := by
        simp [DownloadPEMBundles]
      refine ⟨fun results h => ?_, ?_⟩
      · rw [hred] at h
        have := downloadLoop_ok ⟨none, none, 200, .ok doc, dl⟩ (walk doc) results h
        simpa [discoveredNames] using this
      · have := downloadLoop_isOk ⟨none, none, 200, .ok doc, dl⟩ (walk doc)
        simp only [fetchSucceeded, hred, fetchFails, parseFailed, discoveredNames,
          Option.isSome_none, Bool.false_or]
        simpa using this
  · refine ⟨fun results h => ?_, ?_⟩
    · exfalso
      simp only [DownloadPEMBundles] at h
      rw [if_pos hs] at h
      exact absurd h (by simp)
    · have hne : (stt != 200) = true := by simpa using hs
      simp only [fetchSucceeded, DownloadPEMBundles, fetchFails, hne]
      rw [if_pos hs]
      simp

/-- Witness for the amended C5 at a concrete input: the successful fetch
covers exactly the discovered name `r.pem`. -/
theorem fetchAllOrNothing_witness :
    List.map (fun r => PEMFile.filename r) [(⟨"r.pem", "BODY-r.pem"⟩ : PEMFile)] =
      discoveredNames envOk :=
  (((fetchAllOrNothing envOk).1 [⟨"r.pem", "BODY-r.pem"⟩]) (by rfl)).1

/-! ## The fault-free converge/reap cycle (towards the set-equality claim) -/

/-- Ownership depends only on the labels. -/
lemma isOwned_labels {cm cm' : ConfigMap} (h : cm'.labels = cm.labels) :
    isOwned cm' = isOwned cm := by
  unfold isOwned
  rw [h]

/-- Membership in the owned identifier list, unfolded. -/
lemma ownedNames_mem_iff {st : Cluster} {n : String} :
    n ∈ ownedNames st ↔ ∃ cm, cm ∈ st ∧ isOwned cm = true ∧ cm.name = n := by
  simp only [ownedNames, List.mem_map, List.mem_filter]
  constructor
  · rintro ⟨cm, ⟨h1, h2⟩, h3⟩
    exact ⟨cm, h1, h2, h3⟩
  · rintro ⟨cm, h1, h2, h3⟩
    exact ⟨cm, ⟨h1, h2⟩, h3⟩

/-- In a cluster with pairwise-distinct names, the name determines the
member. -/
lemma name_inj {st : Cluster} (hnd : (st.map ConfigMap.name).Nodup)
    {cm cm' : ConfigMap} (h : cm ∈ st) (h' : cm' ∈ st) (hn : cm.name = cm'.name) :
    cm = cm' :=
  List.inj_on_of_nodup_map hnd h h' hn

/-- A passing `checkConfigMap` means a resource with the normalized name
exists. -/
lemma check_true_mem {f : Faults} {st : Cluster} {b : PEMFile}
    (h : checkConfigMap f st b = true) :
    reName b.filename ∈ st.map ConfigMap.name := by
  unfold checkConfigMap at h
  dsimp only at h
  cases hk : kGet f st (reName b.filename) with
  | error e => rw [hk] at h; exact absurd h (by simp)
  | ok cm =>
    obtain ⟨hmem, hname⟩ := kGet_ok hk
    exact List.mem_map.mpr ⟨cm, hmem, hname⟩

/-- Fault-free create path: when no resource has the normalized name, the
new ConfigMap (owned, payload under `CAKey`) is appended. -/
lemma cou_noFaults_absent {st : Cluster} {b : PEMFile}
    (h : st.find? (fun c => c.name == reName b.filename) = none) :
    createOrUpdateConfigMap noFaults st b =
      ⟨st ++ [⟨reName b.filename, [("app", "cabundle-operator")], [(CAKey, b.content)]⟩],
       [.create (reName b.filename)], none⟩ := by
  unfold createOrUpdateConfigMap kGet kCreate
  simp only [noFaults, h]
  rfl

/-- Fault-free update path: when `find?` returns `cm`, only `cm`'s data is
replaced (at `CAKey`); every other resource is untouched. -/
lemma cou_noFaults_present {st : Cluster} {b : PEMFile} {cm : ConfigMap}
    (h : st.find? (fun c => c.name == reName b.filename) = some cm) :
    createOrUpdateConfigMap noFaults st b =
      ⟨st.map (fun c =>
          if c.name == cm.name then { cm with data := insertA cm.data CAKey b.content } else c),
       [.update (reName b.filename)], none⟩ := by
  have hfind : (st.find? (fun c => c.name == cm.name)).isSome = true := by
    rw [List.find?_isSome]
    exact ⟨cm, List.mem_of_find?_eq_some h, by simp⟩
  unfold createOrUpdateConfigMap kGet kUpdate
  simp only [noFaults, h, hfind, if_true]

/-- `normalizedNames` on a cons cell. -/
lemma normalizedNames_cons (b : PEMFile) (rest : List PEMFile) :
    normalizedNames (b :: rest) = reName b.filename :: normalizedNames rest := rfl

/-- Master specification of the fault-free converge loop: it never errors,
keeps names distinct, the resulting name set is the union of the initial
names and the normalized bundle names, every initial resource survives with
its name and labels, and every resulting resource is either an untouched
initial one, or carries a normalized name with either the labels of the
initial resource of that name or the fresh ownership labels. -/
lemma convergeLoop_noFaults_spec :
    ∀ (bundles : List PEMFile) (st : Cluster),
      (st.map ConfigMap.name).Nodup →
      ((convergeLoop noFaults st bundles).err = none ∧
       ((convergeLoop noFaults st bundles).st.map ConfigMap.name).Nodup ∧
       (∀ n, n ∈ (convergeLoop noFaults st bundles).st.map ConfigMap.name ↔
          (n ∈ st.map ConfigMap.name ∨ n ∈ normalizedNames bundles)) ∧
       (∀ cm ∈ st, ∃ cm', cm' ∈ (convergeLoop noFaults st bundles).st ∧
          cm'.name = cm.name ∧ cm'.labels = cm.labels) ∧
       (∀ cm' ∈ (convergeLoop noFaults st bundles).st,
          cm' ∈ st ∨ (cm'.name ∈ normalizedNames bundles ∧
            ((∃ cm, cm ∈ st ∧ cm.name = cm'.name ∧ cm'.labels = cm.labels) ∨
             cm'.labels = [("app", "cabundle-operator")])))) := by
  intro bundles
  induction bundles with
  | nil =>
    intro st hnd
    refine ⟨rfl, hnd, ?_, ?_, ?_⟩
    · intro n
      simp [convergeLoop, normalizedNames]
    · intro cm hcm
      exact ⟨cm, hcm, rfl, rfl⟩
    · intro cm' h
      exact Or.inl h
  | cons b rest ih =>
    intro st hnd
    by_cases hchk : checkConfigMap noFaults st b = true
    · have hred : convergeLoop noFaults st (b :: rest) = convergeLoop noFaults st rest := by
        simp only [convergeLoop, hchk, if_true]
      have hmem := check_true_mem hchk
      obtain ⟨herr, hnd', hiff, hpres, horig⟩ := ih st hnd
      rw [hred]
      refine ⟨herr, hnd', ?_, hpres, ?_⟩
      · intro n
        rw [hiff n, normalizedNames_cons]
        constructor
        · rintro (h | h)
          · exact Or.inl h
          · exact Or.inr (List.mem_cons.mpr (Or.inr h))
        · rintro (h | h)
          · exact Or.inl h
          · rcases List.mem_cons.mp h with h | h
            · subst h
              exact Or.inl hmem
            · exact Or.inr h
      · intro cm' h
        rcases horig cm' h with h | ⟨h1, h2⟩
        · exact Or.inl h
        · exact Or.inr ⟨by rw [normalizedNames_cons]; exact List.mem_cons.mpr (Or.inr h1), h2⟩
    · rw [Bool.not_eq_true] at hchk
      cases hfind : st.find? (fun c => c.name == reName b.filename) with
      | none =>
        have hcou := cou_noFaults_absent hfind
        have habs : reName b.filename ∉ st.map ConfigMap.name := by
          intro hin
          obtain ⟨c, hc, hcn⟩ := List.mem_map.mp hin
          have := List.find?_eq_none.mp hfind c hc
          simp [hcn] at this
        have hnd2 :
            (((st ++ [(⟨reName b.filename, [("app", "cabundle-operator")],
                [(CAKey, b.content)]⟩ : ConfigMap)]).map ConfigMap.name)).Nodup := by
          rw [List.map_append, List.nodup_append]
          refine ⟨hnd, by simp, ?_⟩
          intro a ha hb
          simp only [List.map_cons, List.map_nil, List.mem_singleton] at hb
          subst hb
          exact habs ha
        have hloop : convergeLoop noFaults st (b :: rest) =
            ⟨(convergeLoop noFaults
                (st ++ [⟨reName b.filename, [("app", "cabundle-operator")],
                  [(CAKey, b.content)]⟩]) rest).st,
             [.create (reName b.filename)] ++
               (convergeLoop noFaults
                 (st ++ [⟨reName b.filename, [("app", "cabundle-operator")],
                   [(CAKey, b.content)]⟩]) rest).trace,
             (convergeLoop noFaults
               (st ++ [⟨reName b.filename, [("app", "cabundle-operator")],
                 [(CAKey, b.content)]⟩]) rest).err⟩ := by
          rw [convergeLoop_cons_false rest hchk, hcou]
        obtain ⟨herr, hnd', hiff, hpres, horig⟩ := ih (st ++
          [⟨reName b.filename, [("app", "cabundle-operator")], [(CAKey, b.content)]⟩]) hnd2
        rw [hloop]
        refine ⟨herr, hnd', ?_, ?_, ?_⟩
        · intro n
          rw [hiff n, normalizedNames_cons, List.map_append]
          constructor
          · rintro (h | h)
            · rcases List.mem_append.mp h with h | h
              · exact Or.inl h
              · simp only [List.map_cons, List.map_nil, List.mem_singleton] at h
                subst h
                exact Or.inr (List.mem_cons_self _ _)
            · exact Or.inr (List.mem_cons.mpr (Or.inr h))
          · rintro (h | h)
            · exact Or.inl (List.mem_append.mpr (Or.inl h))
            · rcases List.mem_cons.mp h with h | h
              · subst h
                exact Or.inl (List.mem_append.mpr (Or.inr (by simp)))
              · exact Or.inr h
        · intro cm hcm
          exact hpres cm (List.mem_append.mpr (Or.inl hcm))
        · intro cm' h
          rcases horig cm' h with h | ⟨h1, h2⟩
          · rcases List.mem_append.mp h with h | h
            · exact Or.inl h
            · simp only [List.mem_singleton] at h
              subst h
              exact Or.inr ⟨by rw [normalizedNames_cons]; exact List.mem_cons_self _ _,
                Or.inr rfl⟩
          · refine Or.inr ⟨by rw [normalizedNames_cons]; exact List.mem_cons.mpr (Or.inr h1), ?_⟩
            rcases h2 with ⟨cm, hcm, hn, hl⟩ | h2
            · rcases List.mem_append.mp hcm with hcm | hcm
              · exact Or.inl ⟨cm, hcm, hn, hl⟩
              · simp only [List.mem_singleton] at hcm
                subst hcm
                exact Or.inr hl
            · exact Or.inr h2
      | some cm0 =>
        have hcou := cou_noFaults_present hfind
        have hcm0 := List.mem_of_find?_eq_some hfind
        have hcm0n : cm0.name = reName b.filename := by
          simpa using List.find?_some hfind
        have hgname : ∀ c : ConfigMap,
            ((if c.name == cm0.name then
                { cm0 with data := insertA cm0.data CAKey b.content } else c) : ConfigMap).name
              = c.name := by
          intro c
          by_cases h : (c.name == cm0.name) = true
          · rw [if_pos h]
            exact (eq_of_beq h).symm
          · rw [if_neg h]
        have hglabels : ∀ c ∈ st,
            ((if c.name == cm0.name then
                { cm0 with data := insertA cm0.data CAKey b.content } else c) : ConfigMap).labels
              = c.labels := by
          intro c hc
          by_cases h : (c.name == cm0.name) = true
          · have hceq : c = cm0 := name_inj hnd hc hcm0 (by simpa using h)
            rw [if_pos h, hceq]
          · rw [if_neg h]
        have hnames :
            ((st.map (fun c => if c.name == cm0.name then
                { cm0 with data := insertA cm0.data CAKey b.content } else c)).map
              ConfigMap.name) = st.map ConfigMap.name := by
          rw [List.map_map]
          exact List.map_congr_left (fun c _ => hgname c)
        have hnd2 :
            ((st.map (fun c => if c.name == cm0.name then
                { cm0 with data := insertA cm0.data CAKey b.content } else c)).map
              ConfigMap.name).Nodup := by
          rw [hnames]; exact hnd
        have hloop : convergeLoop noFaults st (b :: rest) =
            ⟨(convergeLoop noFaults (st.map (fun c => if c.name == cm0.name then
                { cm0 with data := insertA cm0.data CAKey b.content } else c)) rest).st,
             [.update (reName b.filename)] ++
               (convergeLoop noFaults (st.map (fun c => if c.name == cm0.name then
                 { cm0 with data := insertA cm0.data CAKey b.content } else c)) rest).trace,
             (convergeLoop noFaults (st.map (fun c => if c.name == cm0.name then
               { cm0 with data := insertA cm0.data CAKey b.content } else c)) rest).err⟩ := by
          rw [convergeLoop_cons_false rest hchk, hcou]
        obtain ⟨herr, hnd', hiff, hpres, horig⟩ := ih (st.map (fun c =>
          if c.name == cm0.name then
            { cm0 with data := insertA cm0.data CAKey b.content } else c)) hnd2
        rw [hloop]
        refine ⟨herr, hnd', ?_, ?_, ?_⟩
        · intro n
          rw [hiff n, hnames, normalizedNames_cons]
          constructor
          · rintro (h | h)
            · exact Or.inl h
            · exact Or.inr (List.mem_cons.mpr (Or.inr h))
          · rintro (h | h)
            · exact Or.inl h
            · rcases List.mem_cons.mp h with h | h
              · subst h
                exact Or.inl (List.mem_map.mpr ⟨cm0, hcm0, hcm0n⟩)
              · exact Or.inr h
        · intro cm hcm
          obtain ⟨cm', hcm', hn, hl⟩ := hpres _ (List.mem_map_of_mem _ hcm)
          exact ⟨cm', hcm', by rw [hn, hgname], by rw [hl, hglabels cm hcm]⟩
        · intro cm' h
          rcases horig cm' h with h | ⟨h1, h2⟩
          · obtain ⟨c, hc, hgc⟩ := List.mem_map.mp h
            by_cases hcn : (c.name == cm0.name) = true
            · rw [if_pos hcn] at hgc
              refine Or.inr ⟨?_, Or.inl ⟨cm0, hcm0, ?_, ?_⟩⟩
              · rw [← hgc, normalizedNames_cons]
                exact List.mem_cons.mpr (Or.inl hcm0n)
              · rw [← hgc]
              · rw [← hgc]
            · rw [if_neg hcn] at hgc
              exact Or.inl (hgc ▸ hc)
          · refine Or.inr ⟨by rw [normalizedNames_cons]; exact List.mem_cons.mpr (Or.inr h1), ?_⟩
            rcases h2 with ⟨cm1, hcm1, hn1, hl1⟩ | h2
            · obtain ⟨c, hc, hgc⟩ := List.mem_map.mp hcm1
              refine Or.inl ⟨c, hc, ?_, ?_⟩
              · rw [← hn1, ← hgc, hgname]
              · rw [hl1, ← hgc, hglabels c hc]
            · exact Or.inr h2

/-- After a fault-free converge, an identifier is owned exactly when it was
owned before or is a normalized bundle name — provided every initial
resource colliding with a normalized name already carries the ownership
label. -/
lemma converge_owned_iff (bundles : List PEMFile) (st : Cluster)
    (hnd : (st.map ConfigMap.name).Nodup)
    (hcol : ∀ cm ∈ st, cm.name ∈ normalizedNames bundles → isOwned cm = true) :
    ∀ n, n ∈ ownedNames (convergeLoop noFaults st bundles).st ↔
      (n ∈ ownedNames st ∨ n ∈ normalizedNames bundles) := by
  obtain ⟨_herr, _hnd', hiff, hpres, horig⟩ := convergeLoop_noFaults_spec bundles st hnd
  intro n
  constructor
  · intro h
    obtain ⟨cm'', hmem, hown, hname⟩ := ownedNames_mem_iff.mp h
    rcases horig cm'' hmem with hin | ⟨h1, _h2⟩
    · exact Or.inl (ownedNames_mem_iff.mpr ⟨cm'', hin, hown, hname⟩)
    · exact Or.inr (hname ▸ h1)
  · rintro (h | h)
    · obtain ⟨cm, hmem, hown, hname⟩ := ownedNames_mem_iff.mp h
      obtain ⟨cm', hmem', hn', hl'⟩ := hpres cm hmem
      refine ownedNames_mem_iff.mpr ⟨cm', hmem', ?_, by rw [hn', hname]⟩
      rw [isOwned_labels hl']
      exact hown
    · have hn : n ∈ (convergeLoop noFaults st bundles).st.map ConfigMap.name :=
        (hiff n).mpr (Or.inr h)
      obtain ⟨cm'', hmem, hname⟩ := List.mem_map.mp hn
      refine ownedNames_mem_iff.mpr ⟨cm'', hmem, ?_, hname⟩
      rcases horig cm'' hmem with hin | ⟨_h1, h2⟩
      · exact hcol cm'' hin (by rw [hname]; exact h)
      · rcases h2 with ⟨cm, hcm, hn1, hl1⟩ | hl
        · rw [isOwned_labels hl1]
          exact hcol cm hcm (by rw [hn1, hname]; exact h)
        · simp [isOwned, hl, lookupA]

/-- `setKey` on a map without the key appends the pair. -/
lemma setKey_absent (m : List (String × Bool)) (k : String) (v : Bool)
    (h : ∀ p ∈ m, p.1 ≠ k) : setKey m k v = m ++ [(k, v)] := by
  unfold setKey
  have hf : m.find? (fun p => p.1 == k) = none := by
    rw [List.find?_eq_none]
    intro p hp
    simpa using h p hp
  rw [hf]
  rfl

/-- The first fold of `buildStalePairs`: seeding every listed name with
`false`, in listing order. -/
lemma foldl_setKey_false (cmNames : List String) :
    cmNames.Nodup → ∀ acc : List (String × Bool),
      (∀ nm ∈ cmNames, ∀ p ∈ acc, p.1 ≠ nm) →
      cmNames.foldl (fun m b => setKey m b false) acc =
        acc ++ cmNames.map (fun nm => (nm, false)) := by
  induction cmNames with
  | nil =>
    intro _ acc _
    simp
  | cons n ns ih =>
    intro hnd acc hacc
    rw [List.foldl_cons,
      setKey_absent acc n false (fun p hp => hacc n (List.mem_cons_self _ _) p hp),
      ih (List.nodup_cons.mp hnd).2 (acc ++ [(n, false)]) ?_, List.map_cons,
      List.append_assoc]
    · rfl
    · intro nm hnm p hp
      rcases List.mem_append.mp hp with hp | hp
      · exact hacc nm (List.mem_cons.mpr (Or.inr hnm)) p hp
      · simp only [List.mem_singleton] at hp
        subst hp
        dsimp only
        intro he
        exact (List.nodup_cons.mp hnd).1 (he ▸ hnm)

/-- The second fold of `buildStalePairs`: marking each already-listed
normalized bundle name `true`. -/
lemma foldl_mark (bundles : List PEMFile) :
    ∀ (cmNames : List String) (flag : String → Bool), cmNames.Nodup →
      bundles.foldl
        (fun m b =>
          let cmName := reName b.filename
          if (m.find? (fun p => p.1 == cmName)).isSome then setKey m cmName true else m)
        (cmNames.map (fun nm => (nm, flag nm))) =
      cmNames.map (fun nm => (nm, flag nm || decide (nm ∈ normalizedNames bundles))) := by
  induction bundles with
  | nil =>
    intro cmNames flag _
    simp [normalizedNames]
  | cons b rest ih =>
    intro cmNames flag hnd
    rw [List.foldl_cons]
    dsimp only
    by_cases hin : reName b.filename ∈ cmNames
    · have hfindSome :
          ((cmNames.map (fun nm => (nm, flag nm))).find?
            (fun p => p.1 == reName b.filename)).isSome = true := by
        rw [List.find?_isSome]
        exact ⟨(reName b.filename, flag (reName b.filename)),
          List.mem_map.mpr ⟨reName b.filename, hin, rfl⟩, by simp⟩
      rw [if_pos hfindSome]
      have hset : setKey (cmNames.map (fun nm => (nm, flag nm))) (reName b.filename) true =
          cmNames.map (fun nm => (nm, if nm == reName b.filename then true else flag nm)) := by
        unfold setKey
        rw [if_pos hfindSome, List.map_map]
        apply List.map_congr_left
        intro nm _
        by_cases h : (nm == reName b.filename) = true
        · simp only [Function.comp_apply, h, if_pos, if_true]
          rw [eq_of_beq h]
        · simp only [Function.comp_apply, h, Bool.false_eq_true, if_false]
      rw [hset, ih cmNames (fun nm => if nm == reName b.filename then true else flag nm) hnd]
      apply List.map_congr_left
      intro nm _
      by_cases h : (nm == reName b.filename) = true
      · have he := eq_of_beq h
        simp [h, he, normalizedNames_cons]
      · have hne : nm ≠ reName b.filename := by
          intro he
          rw [he] at h
          simp at h
        simp [h, hne, normalizedNames_cons]
    · have hfindNone :
          (cmNames.map (fun nm => (nm, flag nm))).find?
            (fun p => p.1 == reName b.filename) = none := by
        rw [List.find?_eq_none]
        intro p hp
        obtain ⟨nm, hnm, rfl⟩ := List.mem_map.mp hp
        simp only [beq_iff_eq]
        intro he
        exact hin (he ▸ hnm)
      have hcond :
          ((cmNames.map (fun nm => (nm, flag nm))).find?
            (fun p => p.1 == reName b.filename)).isSome = false := by
        rw [hfindNone]
        rfl
      rw [hcond]
      simp only [Bool.false_eq_true, if_false]
      rw [ih cmNames flag hnd]
      apply List.map_congr_left
      intro nm hnm
      have hne : nm ≠ reName b.filename := fun he => hin (he ▸ hnm)
      simp [normalizedNames_cons, hne]

/-- `buildStalePairs` over distinct listed names: each name is paired with
whether it appears among the normalized bundle names. -/
lemma buildStalePairs_spec (cmNames : List String) (bundles : List PEMFile)
    (hnd : cmNames.Nodup) :
    buildStalePairs cmNames bundles =
      cmNames.map (fun nm => (nm, decide (nm ∈ normalizedNames bundles))) := by
  unfold buildStalePairs
  rw [foldl_setKey_false cmNames hnd [] (by simp), List.nil_append]
  have h := foldl_mark bundles cmNames (fun _ => false) hnd
  simpa using h

/-- Fault-free delete of a present resource removes exactly the entries of
that name. -/
lemma delete_noFaults_present (st : Cluster) (nm : String) (cm1 : ConfigMap)
    (hf : st.find? (fun c => c.name == nm) = some cm1) :
    DeleteBundleConfigMap noFaults st nm =
      ⟨st.filter (fun c => !(c.name == nm)), [.delete nm], none⟩ := by
  have hname : cm1.name = nm := by simpa using List.find?_some hf
  have hs : (st.find? (fun c => c.name == nm)).isSome = true := by
    rw [hf]; rfl
  unfold DeleteBundleConfigMap kGet kDelete
  simp only [noFaults, hf, hname, hs, if_true]
  rfl

/-- Fault-free sweep over distinct pair names, every unmarked name present:
no error, and exactly the unmarked names are removed. -/
lemma sweep_noFaults_spec :
    ∀ (pairs : List (String × Bool)) (st : Cluster),
      (st.map ConfigMap.name).Nodup →
      (∀ p ∈ pairs, p.2 = false → ∃ cm, cm ∈ st ∧ cm.name = p.1) →
      (pairs.map Prod.fst).Nodup →
      (sweepStales noFaults st pairs).err = none ∧
      (sweepStales noFaults st pairs).st =
        st.filter (fun cm => !(pairs.any (fun p => p.1 == cm.name && !p.2))) := by
  intro pairs
  induction pairs with
  | nil =>
    intro st _ _ _
    refine ⟨rfl, ?_⟩
    simp [sweepStales]
  | cons p rest ih =>
    intro st hnd hin hndp
    obtain ⟨nm, fl⟩ := p
    have hndp' : (rest.map Prod.fst).Nodup := by
      rw [List.map_cons] at hndp
      exact (List.nodup_cons.mp hndp).2
    cases fl with
    | true =>
      have hred : sweepStales noFaults st ((nm, true) :: rest) =
          sweepStales noFaults st rest := by
        simp [sweepStales]
      rw [hred]
      obtain ⟨he, hst⟩ := ih st hnd
        (fun p hp hpf => hin p (List.mem_cons.mpr (Or.inr hp)) hpf) hndp'
      refine ⟨he, ?_⟩
      rw [hst]
      apply List.filter_congr
      intro cm _
      simp [List.any_cons]
    | false =>
      obtain ⟨cm1, hcm1, hcm1n⟩ := hin (nm, false) (List.mem_cons_self _ _) rfl
      have hsome : (st.find? (fun c => c.name == nm)).isSome = true := by
        rw [List.find?_isSome]
        exact ⟨cm1, hcm1, by simp [hcm1n]⟩
      obtain ⟨cmf, hf⟩ := Option.isSome_iff_exists.mp hsome
      have hdel := delete_noFaults_present st nm cmf hf
      have hred : sweepStales noFaults st ((nm, false) :: rest) =
          ⟨(sweepStales noFaults (st.filter (fun c => !(c.name == nm))) rest).st,
           [.delete nm] ++
             (sweepStales noFaults (st.filter (fun c => !(c.name == nm))) rest).trace,
           (sweepStales noFaults (st.filter (fun c => !(c.name == nm))) rest).err⟩ := by
        rw [sweepStales_cons_false rest, hdel]
      have hnd2 : ((st.filter (fun c => !(c.name == nm))).map ConfigMap.name).Nodup :=
        List.Nodup.sublist ((List.filter_sublist st).map ConfigMap.name) hnd
      have hin2 : ∀ p ∈ rest, p.2 = false →
          ∃ cm, cm ∈ st.filter (fun c => !(c.name == nm)) ∧ cm.name = p.1 := by
        intro p hp hpf
        obtain ⟨cm, hcm, hcmn⟩ := hin p (List.mem_cons.mpr (Or.inr hp)) hpf
        have hne : p.1 ≠ nm := by
          intro he
          rw [List.map_cons] at hndp
          exact (List.nodup_cons.mp hndp).1 (he ▸ List.mem_map.mpr ⟨p, hp, rfl⟩)
        refine ⟨cm, List.mem_filter.mpr ⟨hcm, ?_⟩, hcmn⟩
        simp [hcmn, hne]
      obtain ⟨he, hst⟩ := ih (st.filter (fun c => !(c.name == nm))) hnd2 hin2 hndp'
      rw [hred]
      refine ⟨he, ?_⟩
      dsimp only
      rw [hst, List.filter_filter]
      apply List.filter_congr
      intro cm _
      simp only [List.any_cons, Bool.not_false, Bool.and_true, Bool.not_or]
      rw [Bool.and_comm, Bool.beq_comm]

/-- Fault-free `CleanUpConfigMaps`: no error, and an identifier remains
owned exactly when it was owned and appears among the normalized bundle
names. -/
lemma cleanUp_noFaults_spec (st : Cluster) (bundles : List PEMFile)
    (hnd : (st.map ConfigMap.name).Nodup) :
    (CleanUpConfigMaps noFaults st bundles).err = none ∧
    ∀ n, n ∈ ownedNames (CleanUpConfigMaps noFaults st bundles).st ↔
      (n ∈ ownedNames st ∧ n ∈ normalizedNames bundles) := by
  have hndo : (ownedNames st).Nodup :=
    List.Nodup.sublist ((List.filter_sublist st).map ConfigMap.name) hnd
  have hcu : CleanUpConfigMaps noFaults st bundles =
      sweepStales noFaults st
        ((ownedNames st).map (fun nm => (nm, decide (nm ∈ normalizedNames bundles)))) := by
    unfold CleanUpConfigMaps
    rw [GetBundleConfigMaps_noFaults]
    dsimp only
    rw [buildStalePairs_spec _ _ hndo]
  have hndp : ((((ownedNames st).map
      (fun nm => (nm, decide (nm ∈ normalizedNames bundles)))).map Prod.fst)).Nodup := by
    rw [List.map_map,
      show (Prod.fst ∘ fun nm : String => (nm, decide (nm ∈ normalizedNames bundles))) = id
        from rfl,
      List.map_id]
    exact hndo
  have hinp : ∀ p ∈ (ownedNames st).map
      (fun nm => (nm, decide (nm ∈ normalizedNames bundles))), p.2 = false →
      ∃ cm, cm ∈ st ∧ cm.name = p.1 := by
    intro p hp _
    obtain ⟨nm, hnm, rfl⟩ := List.mem_map.mp hp
    obtain ⟨cm, hcm, _hown, hname⟩ := ownedNames_mem_iff.mp hnm
    exact ⟨cm, hcm, hname⟩
  obtain ⟨he, hst⟩ := sweep_noFaults_spec
    ((ownedNames st).map (fun nm => (nm, decide (nm ∈ normalizedNames bundles)))) st
    hnd hinp hndp
  refine ⟨by rw [hcu]; exact he, ?_⟩
  intro n
  rw [hcu, hst]
  have hcond : ∀ cm : ConfigMap,
      (((ownedNames st).map (fun nm => (nm, decide (nm ∈ normalizedNames bundles)))).any
        (fun p => p.1 == cm.name && !p.2)) = true ↔
      (cm.name ∈ ownedNames st ∧ cm.name ∉ normalizedNames bundles) := by
    intro cm
    rw [List.any_eq_true]
    constructor
    · rintro ⟨p, hp, hcondp⟩
      obtain ⟨nm, hnm, rfl⟩ := List.mem_map.mp hp
      simp only [Bool.and_eq_true, beq_iff_eq, Bool.not_eq_true',
        decide_eq_false_iff_not] at hcondp
      obtain ⟨he, hnin⟩ := hcondp
      exact ⟨he ▸ hnm, he ▸ hnin⟩
    · rintro ⟨hmem, hnin⟩
      refine ⟨(cm.name, decide (cm.name ∈ normalizedNames bundles)),
        List.mem_map.mpr ⟨cm.name, hmem, rfl⟩, ?_⟩
      simp [hnin]
  constructor
  · intro h
    obtain ⟨cm, hcm, hown, hname⟩ := ownedNames_mem_iff.mp h
    obtain ⟨hcmst, hcmcond⟩ := List.mem_filter.mp hcm
    have hnotc : ¬(cm.name ∈ ownedNames st ∧ cm.name ∉ normalizedNames bundles) := by
      intro hc
      rw [← hcond cm] at hc
      rw [hc] at hcmcond
      exact absurd hcmcond (by simp)
    have howned : cm.name ∈ ownedNames st := ownedNames_mem_iff.mpr ⟨cm, hcmst, hown, rfl⟩
    have : cm.name ∈ normalizedNames bundles := by
      by_contra hno
      exact hnotc ⟨howned, hno⟩
    exact ⟨hname ▸ howned, hname ▸ this⟩
  · rintro ⟨howned, hnorm⟩
    obtain ⟨cm, hcm, hown, hname⟩ := ownedNames_mem_iff.mp howned
    refine ownedNames_mem_iff.mpr ⟨cm, List.mem_filter.mpr ⟨hcm, ?_⟩, hown, hname⟩
    rw [Bool.not_eq_true', ← Bool.not_eq_true]
    rw [hcond cm]
    rintro ⟨_h1, h2⟩
    exact h2 (hname ▸ hnorm)

/-- C2 (amended): over a cluster with distinct resource names in which every
resource colliding with a normalized bundle name already carries the
ownership label, the fault-free converge-then-reap cycle succeeds and leaves
the owned identifier set exactly `{normalize(name) : name in F}`. -/
theorem convergeReapSetEquality (st : Cluster) (bundles : List PEMFile)
    (hnd : (st.map ConfigMap.name).Nodup)
    (hcol : ∀ cm ∈ st, cm.name ∈ normalizedNames bundles → isOwned cm = true) :
    (reconcileConvergeReap noFaults st bundles).err = none ∧
    ∀ n, n ∈ ownedNames (reconcileConvergeReap noFaults st bundles).st ↔
      n ∈ normalizedNames bundles := by
  obtain ⟨herr, hnd1, _hiff, _hpres, _horig⟩ := convergeLoop_noFaults_spec bundles st hnd
  have howned := converge_owned_iff bundles st hnd hcol
  have hred : reconcileConvergeReap noFaults st bundles =
      ⟨(CleanUpConfigMaps noFaults (convergeLoop noFaults st bundles).st bundles).st,
       (convergeLoop noFaults st bundles).trace ++
         (CleanUpConfigMaps noFaults (convergeLoop noFaults st bundles).st bundles).trace,
       (CleanUpConfigMaps noFaults (convergeLoop noFaults st bundles).st bundles).err⟩ := by
    unfold reconcileConvergeReap
    simp only [herr]
  obtain ⟨hce, hciff⟩ :=
    cleanUp_noFaults_spec (convergeLoop noFaults st bundles).st bundles hnd1
  rw [hred]
  refine ⟨hce, ?_⟩
  intro n
  dsimp only
  rw [hciff n, howned n]
  constructor
  · rintro ⟨_h1, h2⟩
    exact h2
  · intro h
    exact ⟨Or.inr h, h⟩

/-- Witness for the amended C2 at a concrete input. -/
theorem convergeReapSetEquality_witness :
    (reconcileConvergeReap noFaults c2State c2Bundles).err = none ∧
    ("bundle-a" ∈ ownedNames (reconcileConvergeReap noFaults c2State c2Bundles).st ↔
      "bundle-a" ∈ normalizedNames c2Bundles) := by
  have h := convergeReapSetEquality c2State c2Bundles (by decide) (by decide)
  exact ⟨h.1, h.2 "bundle-a"⟩

end CABundle
